import Mathlib

/-!
Shallow embedding of the record-transformation pipeline of `read_excel.py`
(Uttarakhand value-chain dashboard data builder).  Strings are modelled as
Lean `String` / `List Char`; Python's text operations are translated
character by character.  Unicode-dependent primitives (`str.lower`,
`str.title`, NFKD decomposition) are modelled on the ASCII range, where
they agree exactly with Python; NFKD is given by an explicit sample table
for characters outside ASCII, and every ASCII character is NFKD-invariant
(a property of Unicode normalization that the proofs rely on).
-/

/-- Whitespace characters recognised by Python `str.split()` / `str.strip()` /
regex `\s` on ASCII text: space, tab, newline, carriage return, vertical tab,
form feed. -/
def isPySpace (c : Char) : Bool :=
  c = ' ' || c = '\t' || c = '\n' || c = '\r' || c = '\x0b' || c = '\x0c'

/-- Word characters of regex `\w` on ASCII text: letters, digits, underscore. -/
def isWordChar (c : Char) : Bool :=
  (('a' ≤ c && c ≤ 'z') || ('A' ≤ c && c ≤ 'Z') || ('0' ≤ c && c ≤ '9') || c = '_')

/-- Characters kept by `slugify`'s character class `[a-z0-9]`. -/
def isSlugChar (c : Char) : Bool :=
  (('a' ≤ c && c ≤ 'z') || ('0' ≤ c && c ≤ '9'))

/-- Characters of the class `[a-z ]` kept by `normalize_token`. -/
def isLowerSpace (c : Char) : Bool :=
  (('a' ≤ c && c ≤ 'z') || c = ' ')

/-- Python `str.lower` on one character (ASCII case mapping, which is what the
pipeline's inputs exercise). -/
def pyLowerChar (c : Char) : Char :=
  if 'A' ≤ c && c ≤ 'Z' then Char.ofNat (c.toNat + 32) else c

/-- Python `str.upper` on one character (ASCII case mapping). -/
def pyUpperChar (c : Char) : Char :=
  if 'a' ≤ c && c ≤ 'z' then Char.ofNat (c.toNat - 32) else c

/-- Model of `unicodedata.normalize("NFKD", ·)` on one character, from the
source's use of NFKD: every ASCII character decomposes to itself (true of
Unicode NFKD), and a sample of non-ASCII characters carry their real
decompositions; unmodelled non-ASCII characters are kept as themselves
(they are discarded by the subsequent ASCII filter in any case). -/
def nfkdChar (c : Char) : List Char :=
  if c.toNat < 128 then [c]
  else if c = 'é' then ['e', Char.ofNat 769]
  else if c = 'à' then ['a', Char.ofNat 768]
  else if c = 'ü' then ['u', Char.ofNat 776]
  else if c = 'ñ' then ['n', Char.ofNat 771]
  else if c = '½' then ['1', Char.ofNat 8260, '2']
  else [c]

/-- Python `text.encode("ascii", "ignore")`: drop every non-ASCII character. -/
def asciiFilter (l : List Char) : List Char :=
  l.filter (fun c => c.toNat < 128)

/-- Helper for `words`: accumulated characters of the word currently being
read are carried in `cur` (reversed). -/
def wordsAux (cur : List Char) : List Char → List (List Char)
  | [] => if cur = [] then [] else [cur.reverse]
  | c :: cs =>
    if isPySpace c then
      if cur = [] then wordsAux [] cs else cur.reverse :: wordsAux [] cs
    else wordsAux (c :: cur) cs

/-- Python `str.split()` with no separator: maximal runs of non-whitespace
characters, in order; leading/trailing/repeated whitespace yields no empty
words (hence a preceding `str.strip()` is absorbed by it). -/
def words (l : List Char) : List (List Char) :=
  wordsAux [] l

/-- Python `" ".join`: concatenate with a single space between elements. -/
def joinWords : List (List Char) → List Char
  | [] => []
  | [w] => w
  | w :: w2 :: ws => w ++ ' ' :: joinWords (w2 :: ws)

/-- Embedding of `to_ascii` on character lists: NFKD-decompose, drop
non-ASCII, then `" ".join(text.strip().split())` (the `strip` is absorbed by
`split()`, which never produces empty words). -/
def to_asciiL (l : List Char) : List Char :=
  joinWords (words (asciiFilter (l.flatMap nfkdChar)))

/-- Source `to_ascii(text)`. -/
def to_ascii (text : String) : String :=
  String.mk (to_asciiL text.data)

/-- Python `str.lower` on a character list. -/
def lowerL (l : List Char) : List Char :=
  l.map pyLowerChar

/-- Helper for `collapseRuns`: `inRun` records whether the previous character
was a replaced one. -/
def collapseRunsAux (bad : Char → Bool) (rep : Char) : List Char → Bool → List Char
  | [], _ => []
  | c :: cs, inRun =>
    if bad c then
      if inRun then collapseRunsAux bad rep cs true
      else rep :: collapseRunsAux bad rep cs true
    else c :: collapseRunsAux bad rep cs false

/-- Regex `re.sub("[bad]+", rep, ·)`: replace every maximal run of `bad`
characters by the single character `rep`. -/
def collapseRuns (bad : Char → Bool) (rep : Char) (l : List Char) : List Char :=
  collapseRunsAux bad rep l false

/-- Python `str.strip(chars)`: drop the characters satisfying `p` from both
ends (front first, then back). -/
def stripEnds (p : Char → Bool) (l : List Char) : List Char :=
  ((l.dropWhile p).reverse.dropWhile p).reverse

/-- Source `normalize_token(token)`: `to_ascii` then lowercase, hyphens to
spaces, runs outside `[a-z ]` to a single space (`re.sub("[^a-z ]+", " ")`),
whitespace runs to a single space (`re.sub("\s+", " ")`), strip. -/
def normalize_tokenL (token : List Char) : List Char :=
  let a := lowerL (to_asciiL token)
  let b := a.map (fun c => if c = '-' then ' ' else c)
  let c := collapseRuns (fun c => !(isLowerSpace c)) ' ' b
  stripEnds isPySpace (collapseRuns isPySpace ' ' c)

/-- Source `normalize_token` on `String`. -/
def normalize_token (token : String) : String :=
  String.mk (normalize_tokenL token.data)

/-- Source `slugify(value)`: lowercase, replace runs outside `[a-z0-9]` by a
single hyphen (`re.sub("[^a-z0-9]+", "-")`), strip hyphens from both ends. -/
def slugify (value : String) : String :=
  String.mk (stripEnds (fun c => c = '-') (collapseRuns (fun c => !(isSlugChar c)) '-' (lowerL value.data)))

/-- ASCII letters, the cased characters relevant to Python `str.title` here. -/
def isAsciiAlpha (c : Char) : Bool :=
  (('a' ≤ c && c ≤ 'z') || ('A' ≤ c && c ≤ 'Z'))

/-- Helper for `titleCaseL`: `prevCased` records whether the previous
character was a cased (letter) character. -/
def titleCaseAux : List Char → Bool → List Char
  | [], _ => []
  | c :: cs, prevCased =>
    (if isAsciiAlpha c then (if prevCased then pyLowerChar c else pyUpperChar c) else c)
      :: titleCaseAux cs (isAsciiAlpha c)

/-- Python `str.title` (ASCII): uppercase every letter that follows a
non-letter or the start, lowercase every other letter. -/
def titleCaseL (l : List Char) : List Char :=
  titleCaseAux l false

/-- Python `str.title` on `String`. -/
def pyTitle (s : String) : String :=
  String.mk (titleCaseL s.data)

/-- Python `str.lower` on `String`. -/
def pyLower (s : String) : String :=
  String.mk (lowerL s.data)

/-- Source table `SCORE_MAP`. -/
def SCORE_MAP : List (String × Nat) :=
  [("high", 3), ("medium", 2), ("low", 1)]

/-- Source table `CATEGORY_KEYWORDS` (ordered; first match wins). -/
def CATEGORY_KEYWORDS : List (String × List String) :=
  [("Beverages & Processed Foods",
    ["juice", "squash", "wine", "jam", "jelly", "pickle", "candy", "chutney",
     "powder", "tea", "coffee", "snack", "sherbet", "churan"]),
   ("Extracts & Oils",
    ["oil", "attar", "distill", "extract", "resin"]),
   ("Medicinal & Wellness",
    ["medicine", "herbal", "supplement", "tonic", "tea", "remedy", "capsule"]),
   ("Food Ingredients",
    ["flour", "grain", "millet", "cereal", "kernel", "seed"]),
   ("Fiber & Materials",
    ["wood", "timber", "fiber", "straw", "shell", "pod"])]

/-- Source table `PART_LOOKUP`. -/
def PART_LOOKUP : List (String × String) :=
  [("bark", "Bark"), ("flower", "Flower"), ("fruit", "Fruit"),
   ("grain", "Grain"), ("grains", "Grain"), ("leaf", "Leaf"),
   ("leaves", "Leaf"), ("nut", "Nut & Kernel"), ("kernel", "Nut & Kernel"),
   ("nut kernel", "Nut & Kernel"), ("peel", "Peel & Pomace"),
   ("pomace", "Peel & Pomace"), ("pod", "Pod"), ("resin", "Resin & Gum"),
   ("gum", "Resin & Gum"), ("root", "Root & Rhizome"),
   ("rhizome", "Root & Rhizome"), ("root rhizome", "Root & Rhizome"),
   ("seed", "Seed"), ("shell", "Shell"), ("shoot", "Stem & Shoot"),
   ("stem", "Stem & Shoot"), ("stem shoot", "Stem & Shoot"),
   ("straw", "Straw"), ("thallus", "Whole Thallus"),
   ("wood", "Wood & Timber"), ("timber", "Wood & Timber")]

/-- Source table `PART_ORDER`. -/
def PART_ORDER : List String :=
  ["Bark", "Flower", "Leaf", "Fruit", "Seed", "Root & Rhizome",
   "Stem & Shoot", "Wood & Timber", "Nut & Kernel", "Resin & Gum",
   "Grain", "Straw", "Pod", "Peel & Pomace", "Shell", "Whole Thallus"]

/-- Helper for `splitCommaL`. -/
def splitCommaAux (cur : List Char) : List Char → List (List Char)
  | [] => [cur.reverse]
  | c :: cs => if c = ',' then cur.reverse :: splitCommaAux [] cs else splitCommaAux (c :: cur) cs

/-- Python `raw.split(",")`: split on every comma, keeping empty segments. -/
def splitCommaL (l : List Char) : List (List Char) :=
  splitCommaAux [] l

/-- Source `split_by_comma(raw)`: empty input gives `[]`; otherwise split on
commas, `to_ascii` each segment, strip it, and drop empty items. -/
def split_by_comma (raw : String) : List String :=
  if raw = "" then []
  else
    let items := (splitCommaL raw.data).map (fun part => to_asciiL part)
    ((items.map (fun item => stripEnds isPySpace item)).filter (fun item => item ≠ [])).map String.mk

/-- Source `parse_products(raw)`. -/
def parse_products (raw : String) : List String :=
  split_by_comma raw

/-- Python string comparison `a < b`: code-point lexicographic order on the
character sequences. -/
def lexLt : List Char → List Char → Bool
  | [], [] => false
  | [], _ :: _ => true
  | _ :: _, [] => false
  | a :: as, b :: bs =>
    if a.toNat < b.toNat then true
    else if b.toNat < a.toNat then false
    else lexLt as bs

/-- Python `a < b` on `String`. -/
def strLt (a b : String) : Prop :=
  lexLt a.data b.data = true

instance : DecidableRel strLt := fun a b => by
  unfold strLt
  infer_instance

/-- Python `a <= b` on `String` (the order `sorted` uses). -/
def strLe (a b : String) : Prop :=
  ¬ strLt b a

instance : DecidableRel strLe := fun a b => by
  unfold strLe
  infer_instance

/-- Source `parse_districts(raw)`: title-case each district, deduplicate
(Python set), and sort ascending.  The set is modelled as `List.dedup` and
Python `sorted` as `List.insertionSort`: on a duplicate-free list a sort by a
total order yields the unique strictly ascending arrangement, so the set's
iteration order is immaterial. -/
def parse_districts (raw : String) : List String :=
  let districts := split_by_comma raw
  List.insertionSort strLe ((districts.filter (fun d => d ≠ "")).map pyTitle).dedup

/-- Regex `\b` test for the position before the candidate `and`: the previous
character (if any) must not be a word character. -/
def boundaryBeforeOk : Option Char → Bool
  | none => true
  | some p => !(isWordChar p)

/-- Regex `\b` test for the position after the candidate `and`: the next
character (if any) must not be a word character. -/
def boundaryAfterOk : List Char → Bool
  | [] => true
  | x :: _ => !(isWordChar x)

/-- Embedding of `re.split(r",|/|;|\band\b", raw, flags=IGNORECASE)`: scan
left to right; at each position match `,`, `/`, `;`, or a word-bounded
case-insensitive `and`, splitting at the leftmost match and resuming after
it.  `prev` is the character before the current position (for `\b`), `acc`
the characters of the current segment, reversed. -/
def splitTokens (prev : Option Char) (acc : List Char) : List Char → List (List Char)
  | [] => [acc.reverse]
  | c :: rest =>
    if c = ',' || c = '/' || c = ';' then acc.reverse :: splitTokens (some c) [] rest
    else
      match rest with
      | n :: d :: rest2 =>
        if (c = 'a' || c = 'A') && (n = 'n' || n = 'N') && (d = 'd' || d = 'D')
            && boundaryBeforeOk prev && boundaryAfterOk rest2 then
          acc.reverse :: splitTokens (some d) [] rest2
        else splitTokens (some c) (c :: acc) (n :: d :: rest2)
      | other => splitTokens (some c) (c :: acc) other

/-- One iteration of the `parse_parts` loop body: normalize the token, skip
it when empty, otherwise canonicalize via `PART_LOOKUP` with title-cased
fallback. -/
def cleanedCanon (token : List Char) : Option String :=
  let cleaned := normalize_tokenL token
  if cleaned = [] then none
  else some ((PART_LOOKUP.lookup (String.mk cleaned)).getD (String.mk (titleCaseL cleaned)))

/-- Python key `PART_ORDER.index(part) if part in PART_ORDER else
len(PART_ORDER)` (which is exactly `List.indexOf`). -/
def part_rank (part : String) : Nat :=
  PART_ORDER.indexOf part

/-- The total preorder induced by the Python sort key
`(part_rank part, part)` compared lexicographically. -/
def partLE (a b : String) : Prop :=
  part_rank a < part_rank b ∨ (part_rank a = part_rank b ∧ strLe a b)

/-- The strict version of `partLE`: the sort key `(part_rank part, part)`
strictly increases. -/
def partLT (a b : String) : Prop :=
  part_rank a < part_rank b ∨ (part_rank a = part_rank b ∧ strLt a b)

instance : DecidableRel partLE := fun a b => by
  unfold partLE
  infer_instance

/-- Source `parse_parts(raw)`.  The Python set of canonical labels is
modelled as `List.dedup` of the collected labels, and `sorted(..., key=...)`
as `List.insertionSort partLE`: the key is injective on distinct labels, so
the sorted result is independent of the set's iteration order and of which
stable sort is used. -/
def parse_parts (raw : String) : List String :=
  if raw = "" then []
  else
    let tokens := splitTokens none [] raw.data
    let canonical := (tokens.filterMap cleanedCanon).dedup
    let filtered := canonical.filter (fun part => part ≠ "")
    List.insertionSort partLE filtered

/-- The score of one qualitative label: `SCORE_MAP.get(label.lower(), 2)`. -/
def scoreOf (label : String) : Nat :=
  (SCORE_MAP.lookup (pyLower label)).getD 2

/-- Source `determine_linkage(volume, commercial)`. -/
def determine_linkage (volume commercial : String) : String :=
  let vol_score := scoreOf volume
  let val_score := scoreOf commercial
  if 3 ≤ vol_score ∧ 3 ≤ val_score then "Integrated"
  else if vol_score < val_score then "Backward"
  else if val_score < vol_score then "Forward"
  else "Integrated"

/-- Tests whether `needle` is a leading block of `hay`. -/
def startsWithL : List Char → List Char → Bool
  | [], _ => true
  | _ :: _, [] => false
  | a :: as, b :: bs => a == b && startsWithL as bs

/-- Python substring test `needle in hay` on character lists. -/
def containsSub (needle : List Char) : List Char → Bool
  | [] => needle.isEmpty
  | h :: hs => startsWithL needle (h :: hs) || containsSub needle hs

/-- Source `determine_species_type(category)`. -/
def determine_species_type (category : String) : String :=
  if containsSub "agro".data (lowerL category.data) then "Agro-commodity" else "NTFP"

/-- The `for label, keywords in CATEGORY_KEYWORDS` loop of
`determine_product_focus`. -/
def focusScan (joined : List Char) : List (String × List String) → String
  | [] => "Other Value Chain"
  | (label, keywords) :: rest =>
    if keywords.any (fun keyword => containsSub keyword.data joined) then label
    else focusScan joined rest

/-- Source `determine_product_focus(products)`: join the lowercased product
names with single spaces and scan the keyword table in order. -/
def determine_product_focus (products : List String) : String :=
  let joined := joinWords (products.map (fun product => lowerL product.data))
  focusScan joined CATEGORY_KEYWORDS

/-- Python `sep.join(items)` for strings. -/
def joinSep (sep : String) : List String → String
  | [] => ""
  | [x] => x
  | x :: y :: rest => x ++ sep ++ joinSep sep (y :: rest)

/-- Source `human_join(items)`. -/
def human_join (items : List String) : String :=
  match items with
  | [] => ""
  | [x] => x
  | x :: y :: rest =>
    joinSep ", " ((x :: y :: rest).dropLast) ++ " and "
      ++ (x :: y :: rest).getLast (List.cons_ne_nil x (y :: rest))

/-- Source `build_strength(name, species_type, volume, commercial,
districts)`; Python truthiness of a string is non-emptiness. -/
def build_strength (name species_type volume commercial : String) (districts : List String) : String :=
  let descriptors :=
    (if volume = "" then [] else [pyLower volume ++ " volume potential"]) ++
    (if commercial = "" then [] else [pyLower commercial ++ " commercial value"])
  let base := name ++ " (" ++ species_type ++ ")"
  let base2 := if descriptors = [] then base else base ++ " shows " ++ joinSep " and " descriptors
  let base3 := if districts = [] then base2 else base2 ++ " across " ++ human_join districts
  base3 ++ "."

/-- Source `build_justification(linkage, products, parts)`: a keyed lookup in
a three-entry dict; `none` models the `KeyError` raised on any other key. -/
def build_justification (linkage : String) (products parts : List String) : Option String :=
  if linkage = "Backward" then
    some "Strengthen cultivation, nurseries, and aggregation systems to stabilise supply."
  else if linkage = "Forward" then
    some "Invest in processing, packaging, and market development to capture premiums."
  else if linkage = "Integrated" then
    some "Coordinate both production and market-side interventions for balanced growth."
  else none

/-- A cleaned spreadsheet row, as produced by the external `load_rows`
collaborator: a mapping from column name to cell text (absent column and
empty cell both read back as `""`). -/
abbrev Row : Type := List (String × String)

/-- Python `row.get(column)` with a missing key read as the empty string
(`None` and `""` are both falsy, which is the only way the value is used). -/
def rowGet (row : Row) (column : String) : String :=
  ((row.lookup column).getD "")

/-- Python `a or b` on strings: the first operand unless it is empty. -/
def pyOr (a b : String) : String :=
  if a = "" then b else a

/-- One output record of the pipeline (the dict appended to `species`). -/
structure SpeciesRecord where
  name : String
  botanical : String
  image : String
  speciesType : String
  habitat : String
  conservation : String
  districts : List String
  partsUsed : List String
  products : List String
  productFocus : String
  linkage : String
  volume : String
  commercialValue : String
  strength : String
  justification : Option String
deriving DecidableEq

/-- The per-row body of `transform`'s loop, composing the field
computations exactly as the source does. -/
def transformRow (row : Row) : SpeciesRecord :=
  let name := pyOr (pyOr (rowGet row "Common Name") (rowGet row "Scientific Name")) "Unnamed Commodity"
  let botanical := pyOr (rowGet row "Scientific Name") ""
  let category := pyOr (rowGet row "CATEGORY") "NTFP"
  let species_type := determine_species_type category
  let habitat := pyOr (rowGet row "HABITAT") ""
  let conservation := pyOr (rowGet row "Conservation Status") ""
  let volume := pyOr (rowGet row "Volume") "Medium"
  let commercial := pyOr (rowGet row "Commercial Value") "Medium"
  let districts := parse_districts (pyOr (rowGet row "Districts") "")
  let products := parse_products (pyOr (rowGet row "Products") "")
  let parts_used := parse_parts (pyOr (rowGet row "Plant Parts Used") "")
  let linkage := determine_linkage volume commercial
  let product_focus := determine_product_focus products
  let strength := build_strength name species_type volume commercial districts
  let justification := build_justification linkage products parts_used
  let slug := slugify (pyOr (pyOr name botanical) "species")
  { name := name
    botanical := botanical
    image := "images/" ++ slug ++ ".jpg"
    speciesType := species_type
    habitat := habitat
    conservation := conservation
    districts := districts
    partsUsed := parts_used
    products := products
    productFocus := product_focus
    linkage := linkage
    volume := volume
    commercialValue := commercial
    strength := strength
    justification := justification }

/-- The `species` list built by `transform`: one record appended per source
row, in row order. -/
def transformSpecies (rows : List Row) : List SpeciesRecord :=
  rows.map transformRow

/-- The `district_counter` of `transform`, as a multiset (a
`collections.Counter` is exactly a multiset of keys): each district of each
record counts once. -/
def district_counter (records : List SpeciesRecord) : Multiset String :=
  ↑(records.flatMap (fun r => r.districts))

/-- The `linkage_counter` of `transform`. -/
def linkage_counter (records : List SpeciesRecord) : Multiset String :=
  ↑(records.map (fun r => r.linkage))

/-- The `species_type_counter` of `transform`. -/
def species_type_counter (records : List SpeciesRecord) : Multiset String :=
  ↑(records.map (fun r => r.speciesType))

/-- The `habitat_counter` of `transform`: a record counts only when its
habitat is non-empty. -/
def habitat_counter (records : List SpeciesRecord) : Multiset String :=
  ↑(records.flatMap (fun r => if r.habitat = "" then [] else [r.habitat]))

/-- The `parts_counter` of `transform`. -/
def parts_counter (records : List SpeciesRecord) : Multiset String :=
  ↑(records.flatMap (fun r => r.partsUsed))

example : slugify "Wild Honey & Bee Wax" = "wild-honey-bee-wax" := by decide
example : to_ascii "  a   b " = "a b" := by decide
example : normalize_token "Root-/rhizome!" = "root rhizome" := by decide
example : parse_parts "fruit, seed" = ["Fruit", "Seed"] := by decide
example : parse_parts "zebra, apple" = ["Apple", "Zebra"] := by decide
example : parse_parts "Leaves and Bark/root" = ["Bark", "Leaf", "Root & Rhizome"] := by decide
example : parse_districts "dehradun, Nainital" = ["Dehradun", "Nainital"] := by decide
example : determine_linkage "high" "high" = "Integrated" := by decide
example : determine_linkage "low" "high" = "Backward" := by decide
example : determine_product_focus ["Mango Squash"] = "Beverages & Processed Foods" := by decide
example : determine_product_focus ["Unknown Widget"] = "Other Value Chain" := by decide
example : determine_product_focus ["Herbal Tea"] = "Beverages & Processed Foods" := by decide

theorem lexLt_irrefl : ∀ l, lexLt l l = false
  | [] => rfl
  | a :: as => by
    simp only [lexLt, lexLt_irrefl as]
    simp

theorem lexLt_asymm : ∀ {a b : List Char}, lexLt a b = true → lexLt b a = false
  | [], [], h => by simp [lexLt] at h
  | [], _ :: _, _ => by simp [lexLt]
  | _ :: _, [], h => by simp [lexLt] at h
  | a :: as, b :: bs, h => by
    simp only [lexLt] at h ⊢
    by_cases h1 : a.toNat < b.toNat
    · rw [if_neg (by omega), if_pos h1]
    · by_cases h2 : b.toNat < a.toNat
      · rw [if_neg h1, if_pos h2] at h
        exact absurd h (by simp)
      · rw [if_neg h1, if_neg h2] at h
        rw [if_neg h2, if_neg h1]
        exact lexLt_asymm h

theorem lexLt_trans : ∀ {a b c : List Char},
    lexLt a b = true → lexLt b c = true → lexLt a c = true
  | a, b, [], h1, h2 => by
    cases b <;> simp [lexLt] at h2
  | [], b, _ :: _, _, _ => by simp [lexLt]
  | a :: as, b, c :: cs, h1, h2 => by
    cases b with
    | nil => simp [lexLt] at h1
    | cons b bs =>
      simp only [lexLt] at h1 h2 ⊢
      by_cases hab : a.toNat < b.toNat
      · by_cases hbc : b.toNat < c.toNat
        · rw [if_pos (by omega)]
        · by_cases hcb : c.toNat < b.toNat
          · rw [if_neg hbc, if_pos hcb] at h2
            exact absurd h2 (by simp)
          · rw [if_pos (by omega)]
      · by_cases hba : b.toNat < a.toNat
        · rw [if_neg hab, if_pos hba] at h1
          exact absurd h1 (by simp)
        · rw [if_neg hab, if_neg hba] at h1
          by_cases hbc : b.toNat < c.toNat
          · rw [if_pos (by omega)]
          · by_cases hcb : c.toNat < b.toNat
            · rw [if_neg hbc, if_pos hcb] at h2
              exact absurd h2 (by simp)
            · rw [if_neg hbc, if_neg hcb] at h2
              rw [if_neg (by omega), if_neg (by omega)]
              exact lexLt_trans h1 h2

theorem lexLt_connex : ∀ {a b : List Char},
    lexLt a b = false → lexLt b a = false → a = b
  | [], [], _, _ => rfl
  | [], _ :: _, h1, _ => by simp [lexLt] at h1
  | _ :: _, [], _, h2 => by simp [lexLt] at h2
  | a :: as, b :: bs, h1, h2 => by
    simp only [lexLt] at h1 h2
    by_cases hab : a.toNat < b.toNat
    · rw [if_pos hab] at h1
      exact absurd h1 (by simp)
    · by_cases hba : b.toNat < a.toNat
      · rw [if_neg hab, if_pos hba] at h1
        rw [if_pos hba] at h2
        exact absurd h2 (by simp)
      · rw [if_neg hab, if_neg hba] at h1
        rw [if_neg hba, if_neg hab] at h2
        have hc : a = b := by
          have : a.toNat = b.toNat := by omega
          calc a = Char.ofNat a.toNat := (Char.ofNat_toNat a).symm
            _ = Char.ofNat b.toNat := by rw [this]
            _ = b := Char.ofNat_toNat b
        rw [hc, lexLt_connex h1 h2]

theorem strData_inj {a b : String} (h : a.data = b.data) : a = b :=
  congrArg String.mk h

theorem strLe_iff {a b : String} : strLe a b ↔ lexLt b.data a.data = false := by
  unfold strLe strLt
  simp

theorem strLe_total (a b : String) : strLe a b ∨ strLe b a := by
  rw [strLe_iff, strLe_iff]
  by_cases h : lexLt b.data a.data = true
  · exact Or.inr (lexLt_asymm h)
  · exact Or.inl (by simpa using h)

theorem strLe_trans {a b c : String} (h1 : strLe a b) (h2 : strLe b c) : strLe a c := by
  rw [strLe_iff] at h1 h2 ⊢
  by_cases hca : lexLt c.data a.data = true
  · by_cases hab : lexLt a.data b.data = true
    · exact absurd (lexLt_trans hca hab) (by simp [h2])
    · have hab2 : a = b := strData_inj (lexLt_connex (by simpa using hab) h1)
      exact absurd (hab2 ▸ hca) (by simp [h2])
  · simpa using hca

theorem strLe_ne_strLt {a b : String} (h1 : strLe a b) (h2 : a ≠ b) : strLt a b := by
  rw [strLe_iff] at h1
  by_cases h : lexLt a.data b.data = true
  · exact h
  · exact absurd (strData_inj (lexLt_connex (by simpa using h) h1)) h2

instance : IsTotal String strLe := ⟨strLe_total⟩

instance : IsTrans String strLe := ⟨fun _ _ _ => strLe_trans⟩

instance : IsTotal String partLE := by
  refine ⟨fun a b => ?_⟩
  rcases Nat.lt_trichotomy (part_rank a) (part_rank b) with h | h | h
  · exact Or.inl (Or.inl h)
  · rcases strLe_total a b with hs | hs
    · exact Or.inl (Or.inr ⟨h, hs⟩)
    · exact Or.inr (Or.inr ⟨h.symm, hs⟩)
  · exact Or.inr (Or.inl h)

instance : IsTrans String partLE := by
  refine ⟨fun a b c h1 h2 => ?_⟩
  rcases h1 with h1 | ⟨h1, h1s⟩
  · rcases h2 with h2 | ⟨h2, _⟩
    · exact Or.inl (Nat.lt_trans h1 h2)
    · exact Or.inl (h2 ▸ h1)
  · rcases h2 with h2 | ⟨h2, h2s⟩
    · exact Or.inl (h1 ▸ h2)
    · exact Or.inr ⟨h1.trans h2, strLe_trans h1s h2s⟩

theorem scoreOf_eq (label : String) : scoreOf label =
    (if pyLower label = "high" then 3
     else if pyLower label = "medium" then 2
     else if pyLower label = "low" then 1 else 2) := by
  unfold scoreOf SCORE_MAP
  simp only [List.lookup]
  repeat' split <;> simp_all

theorem scoreOf_le_three (label : String) : scoreOf label ≤ 3 := by
  rw [scoreOf_eq]
  split_ifs <;> omega

/-- C1: `determine_linkage` maps each label case-insensitively to an ordinal
via `SCORE_MAP` (`high` 3, `medium` 2, `low` 1, anything else 2) and returns
`Integrated` when both scores are at least 3, `Backward` when the volume
score is strictly below the value score, `Forward` when the value score is
strictly below the volume score, and `Integrated` when the scores are equal
without both reaching 3; in particular on the four quoted label pairs it
returns `Integrated`, `Backward`, `Forward`, `Integrated`. -/
theorem determine_linkage_spec :
    (∀ label : String, scoreOf label =
      (if pyLower label = "high" then 3
       else if pyLower label = "medium" then 2
       else if pyLower label = "low" then 1 else 2)) ∧
    (∀ volume commercial : String,
      (3 ≤ scoreOf volume → 3 ≤ scoreOf commercial →
        determine_linkage volume commercial = "Integrated") ∧
      (scoreOf volume < scoreOf commercial →
        determine_linkage volume commercial = "Backward") ∧
      (scoreOf commercial < scoreOf volume →
        determine_linkage volume commercial = "Forward") ∧
      (scoreOf volume = scoreOf commercial →
        ¬(3 ≤ scoreOf volume ∧ 3 ≤ scoreOf commercial) →
        determine_linkage volume commercial = "Integrated")) ∧
    determine_linkage "high" "high" = "Integrated" ∧
    determine_linkage "low" "high" = "Backward" ∧
    determine_linkage "high" "low" = "Forward" ∧
    determine_linkage "medium" "medium" = "Integrated" := by
  refine ⟨scoreOf_eq, fun volume commercial => ?_, by decide, by decide, by decide, by decide⟩
  have hv := scoreOf_le_three volume
  have hc := scoreOf_le_three commercial
  refine ⟨fun h1 h2 => ?_, fun h => ?_, fun h => ?_, fun h1 h2 => ?_⟩
  · simp only [determine_linkage]
    rw [if_pos ⟨h1, h2⟩]
  · simp only [determine_linkage]
    rw [if_neg (fun g => by obtain ⟨g1, g2⟩ := g; omega), if_pos h]
  · simp only [determine_linkage]
    rw [if_neg (fun g => by obtain ⟨g1, g2⟩ := g; omega), if_neg (by omega), if_pos h]
  · simp only [determine_linkage]
    rw [if_neg h2, if_neg (by omega), if_neg (by omega)]

/-- Witness for `determine_linkage_spec`: each conditional clause applied at
a concrete label pair. -/
theorem determine_linkage_spec_witness :
    determine_linkage "high" "high" = "Integrated" ∧
    determine_linkage "low" "high" = "Backward" ∧
    determine_linkage "high" "low" = "Forward" ∧
    determine_linkage "medium" "medium" = "Integrated" :=
  ⟨(determine_linkage_spec.2.1 "high" "high").1 (by decide) (by decide),
   (determine_linkage_spec.2.1 "low" "high").2.1 (by decide),
   (determine_linkage_spec.2.1 "high" "low").2.2.1 (by decide),
   (determine_linkage_spec.2.1 "medium" "medium").2.2.2 (by decide) (by decide)⟩

/-- C10: `determine_linkage` always returns one of the three strings
`Backward`, `Forward`, `Integrated`, so the keyed lookup in
`build_justification` always succeeds on its output (the `KeyError` branch,
modelled by `none`, is unreachable). -/
theorem determine_linkage_total (volume commercial : String) (products parts : List String) :
    (determine_linkage volume commercial = "Backward" ∨
     determine_linkage volume commercial = "Forward" ∨
     determine_linkage volume commercial = "Integrated") ∧
    (build_justification (determine_linkage volume commercial) products parts).isSome = true := by
  constructor
  · simp only [determine_linkage]
    split_ifs <;> simp
  · simp only [determine_linkage]
    split_ifs <;> simp [build_justification]

/-- Witness for `determine_linkage_total` at a concrete input. -/
theorem determine_linkage_total_witness :
    (determine_linkage "low" "high" = "Backward" ∨
     determine_linkage "low" "high" = "Forward" ∨
     determine_linkage "low" "high" = "Integrated") ∧
    (build_justification (determine_linkage "low" "high") [] []).isSome = true :=
  determine_linkage_total "low" "high" [] []

theorem focusScan_eq_find (joined : List Char) :
    ∀ table : List (String × List String),
      focusScan joined table =
        ((table.find? (fun lk =>
            lk.2.any (fun keyword => containsSub keyword.data joined))).map Prod.fst).getD
          "Other Value Chain"
  | [] => rfl
  | (label, keywords) :: rest => by
    simp only [focusScan, List.find?]
    by_cases h : keywords.any (fun keyword => containsSub keyword.data joined) = true
    · simp [h]
    · simp only [Bool.not_eq_true] at h
      simp [h, focusScan_eq_find joined rest]

/-- C5: `determine_product_focus` joins the lowercased product names into one
search string, scans `CATEGORY_KEYWORDS` in listed order, returns the label
of the first category one of whose keywords occurs as a substring, and
returns `Other Value Chain` when no keyword matches (in particular on the
empty product list); the quoted concrete cases hold, and a product
containing `tea` yields `Beverages & Processed Foods` rather than
`Medicinal & Wellness`. -/
theorem determine_product_focus_spec :
    (∀ products : List String,
      determine_product_focus products =
        ((CATEGORY_KEYWORDS.find? (fun lk =>
            lk.2.any (fun keyword => containsSub keyword.data
              (joinWords (products.map (fun product => lowerL product.data)))))).map
           Prod.fst).getD "Other Value Chain") ∧
    (∀ products : List String,
      (∀ lk ∈ CATEGORY_KEYWORDS, ∀ keyword ∈ lk.2,
        containsSub keyword.data
          (joinWords (products.map (fun product => lowerL product.data))) = false) →
      determine_product_focus products = "Other Value Chain") ∧
    determine_product_focus [] = "Other Value Chain" ∧
    determine_product_focus ["Mango Squash"] = "Beverages & Processed Foods" ∧
    determine_product_focus ["Unknown Widget"] = "Other Value Chain" ∧
    determine_product_focus ["Herbal Tea"] = "Beverages & Processed Foods" := by
  refine ⟨fun products => focusScan_eq_find _ _, fun products h => ?_,
    by decide, by decide, by decide, by decide⟩
  simp only [determine_product_focus]
  rw [focusScan_eq_find _ _]
  rw [List.find?_eq_none.mpr]
  · rfl
  · intro lk hlk
    simp only [Bool.not_eq_true, List.any_eq_false]
    intro keyword hk
    exact h lk hlk keyword hk

/-- Witness for `determine_product_focus_spec`: the no-match clause applied
to a concrete product list. -/
theorem determine_product_focus_spec_witness :
    determine_product_focus ["Unknown Widget"] = "Other Value Chain" :=
  determine_product_focus_spec.2.1 ["Unknown Widget"] (by decide)

/-- C6: absent or empty cells are never an error: the name falls back to the
`Scientific Name` cell and then to `Unnamed Commodity`, the category used
for species-type classification defaults to `NTFP` (so the species type is
`NTFP`), and volume and commercial value each default to `Medium`. -/
theorem transformRow_defaults (row : Row) :
    (rowGet row "Common Name" = "" → rowGet row "Scientific Name" ≠ "" →
      (transformRow row).name = rowGet row "Scientific Name") ∧
    (rowGet row "Common Name" = "" → rowGet row "Scientific Name" = "" →
      (transformRow row).name = "Unnamed Commodity") ∧
    (rowGet row "CATEGORY" = "" → (transformRow row).speciesType = "NTFP") ∧
    (rowGet row "Volume" = "" → (transformRow row).volume = "Medium") ∧
    (rowGet row "Commercial Value" = "" →
      (transformRow row).commercialValue = "Medium") := by
  refine ⟨fun h1 h2 => ?_, fun h1 h2 => ?_, fun h => ?_, fun h => ?_, fun h => ?_⟩
  · simp [transformRow, pyOr, h1, h2]
  · simp [transformRow, pyOr, h1, h2]
  · simp [transformRow, pyOr, h]
    decide
  · simp [transformRow, pyOr, h]
  · simp [transformRow, pyOr, h]

/-- Witness for `transformRow_defaults`: the empty row takes every default. -/
theorem transformRow_defaults_witness :
    (transformRow []).name = "Unnamed Commodity" ∧
    (transformRow []).speciesType = "NTFP" ∧
    (transformRow []).volume = "Medium" ∧
    (transformRow []).commercialValue = "Medium" :=
  ⟨(transformRow_defaults []).2.1 rfl rfl,
   (transformRow_defaults []).2.2.1 rfl,
   (transformRow_defaults []).2.2.2.1 rfl,
   (transformRow_defaults []).2.2.2.2 rfl⟩

/-- C7: the pipeline produces exactly one record per input row, in input row
order: the species list has the same length as the row list and its i-th
entry is the transform of the i-th row. -/
theorem transformSpecies_one_per_row (rows : List Row) :
    (transformSpecies rows).length = rows.length ∧
    ∀ i : Nat, (transformSpecies rows).get? i = (rows.get? i).map transformRow := by
  refine ⟨List.length_map rows transformRow, fun i => ?_⟩
  simp [transformSpecies, List.get?_map]

/-- C9: aggregation is order-independent: permuting the record list leaves
all five frequency counters (district, linkage, species type, non-empty
habitat, part) unchanged. -/
theorem counters_perm_invariant (records records2 : List SpeciesRecord)
    (h : records.Perm records2) :
    district_counter records = district_counter records2 ∧
    linkage_counter records = linkage_counter records2 ∧
    species_type_counter records = species_type_counter records2 ∧
    habitat_counter records = habitat_counter records2 ∧
    parts_counter records = parts_counter records2 := by
  refine ⟨?_, ?_, ?_, ?_, ?_⟩
  · exact Multiset.coe_eq_coe.mpr (h.flatMap_right (fun r => r.districts))
  · exact Multiset.coe_eq_coe.mpr (h.map (fun r => r.linkage))
  · exact Multiset.coe_eq_coe.mpr (h.map (fun r => r.speciesType))
  · exact Multiset.coe_eq_coe.mpr
      (h.flatMap_right (fun r => if r.habitat = "" then [] else [r.habitat]))
  · exact Multiset.coe_eq_coe.mpr (h.flatMap_right (fun r => r.partsUsed))

/-- Witness for `counters_perm_invariant`: swapping two concrete records. -/
theorem counters_perm_invariant_witness :
    ([transformRow [], transformRow [("HABITAT", "Alpine")]].Perm
      [transformRow [("HABITAT", "Alpine")], transformRow []]) ∧
    (district_counter [transformRow [], transformRow [("HABITAT", "Alpine")]] =
      district_counter [transformRow [("HABITAT", "Alpine")], transformRow []] ∧
     linkage_counter [transformRow [], transformRow [("HABITAT", "Alpine")]] =
      linkage_counter [transformRow [("HABITAT", "Alpine")], transformRow []] ∧
     species_type_counter [transformRow [], transformRow [("HABITAT", "Alpine")]] =
      species_type_counter [transformRow [("HABITAT", "Alpine")], transformRow []] ∧
     habitat_counter [transformRow [], transformRow [("HABITAT", "Alpine")]] =
      habitat_counter [transformRow [("HABITAT", "Alpine")], transformRow []] ∧
     parts_counter [transformRow [], transformRow [("HABITAT", "Alpine")]] =
      parts_counter [transformRow [("HABITAT", "Alpine")], transformRow []]) :=
  ⟨List.Perm.swap (transformRow [("HABITAT", "Alpine")]) (transformRow []) [],
   counters_perm_invariant _ _
     (List.Perm.swap (transformRow [("HABITAT", "Alpine")]) (transformRow []) [])⟩

theorem part_rank_lt_iff_mem {p : String} : part_rank p < PART_ORDER.length ↔ p ∈ PART_ORDER :=
  List.indexOf_lt_length

theorem part_rank_eq_length_iff {p : String} : part_rank p = PART_ORDER.length ↔ p ∉ PART_ORDER :=
  List.indexOf_eq_length

theorem part_rank_inj {a b : String} (ha : a ∈ PART_ORDER) (hb : b ∈ PART_ORDER)
    (h : part_rank a = part_rank b) : a = b := by
  have ha2 : part_rank a < PART_ORDER.length := part_rank_lt_iff_mem.mpr ha
  have hb2 : part_rank b < PART_ORDER.length := part_rank_lt_iff_mem.mpr hb
  have ea : PART_ORDER.get ⟨part_rank a, ha2⟩ = a := List.indexOf_get ha2
  have eb : PART_ORDER.get ⟨part_rank b, hb2⟩ = b := List.indexOf_get hb2
  rw [← ea, ← eb]
  congr 1
  exact Fin.ext h

theorem partLE_ne_partLT {a b : String} (hle : partLE a b) (hne : a ≠ b) : partLT a b := by
  rcases hle with h | ⟨h, hs⟩
  · exact Or.inl h
  · exact Or.inr ⟨h, strLe_ne_strLt hs hne⟩

theorem parse_parts_core (raw : String) :
    (parse_parts raw).Pairwise partLE ∧ (parse_parts raw).Nodup := by
  unfold parse_parts
  split_ifs
  · simp
  · constructor
    · exact List.sorted_insertionSort partLE _
    · exact (List.perm_insertionSort partLE _).symm.nodup
        ((List.nodup_dedup _).filter _)

theorem parse_parts_pairwise_partLT (raw : String) :
    (parse_parts raw).Pairwise partLT := by
  have h := parse_parts_core raw
  exact (h.1.and h.2).imp (fun hab => partLE_ne_partLT hab.1 hab.2)

/-- C2: `parse_parts` output never contains duplicate labels, and is sorted
so that labels in `PART_ORDER` precede labels outside it, labels in
`PART_ORDER` appear in increasing order of their index, and rank ties are
broken by label text. -/
theorem parse_parts_sorted (raw : String) :
    (parse_parts raw).Nodup ∧
    (parse_parts raw).Pairwise (fun a b =>
      (b ∈ PART_ORDER → a ∈ PART_ORDER) ∧
      (a ∈ PART_ORDER → b ∈ PART_ORDER → part_rank a < part_rank b) ∧
      (part_rank a = part_rank b → strLt a b)) := by
  refine ⟨(parse_parts_core raw).2, (parse_parts_pairwise_partLT raw).imp ?_⟩
  rintro a b (h | ⟨h, hs⟩)
  · refine ⟨fun hb => ?_, fun _ _ => h, fun he => absurd he (by omega)⟩
    have := part_rank_lt_iff_mem.mpr hb
    exact part_rank_lt_iff_mem.mp (by omega)
  · refine ⟨fun hb => part_rank_lt_iff_mem.mp ?_, fun ha hb => ?_, fun _ => hs⟩
    · have := part_rank_lt_iff_mem.mpr hb
      omega
    · exact absurd (part_rank_inj ha hb h) (fun he => by
        rw [he] at hs
        exact absurd hs (by simp [strLt, lexLt_irrefl]))

/-- Witness for `parse_parts_sorted`: output for a concrete mixed input is
duplicate-free. -/
theorem parse_parts_sorted_witness : (parse_parts "fruit, seed, fruit").Nodup :=
  (parse_parts_sorted "fruit, seed, fruit").1

/-- Counterexample to C4 as stated: in `"zebra, apple"` the unknown labels
are encountered in the order Zebra, Apple, yet the output lists Apple first
(alphabetical), not in encounter order. -/
theorem parse_parts_unknown_counterexample :
    parse_parts "zebra, apple" = ["Apple", "Zebra"] ∧
    parse_parts "zebra, apple" ≠ ["Zebra", "Apple"] := by
  constructor
  · decide
  · decide

/-- C4 as amended: labels not in `PART_ORDER` appear after all labels in
`PART_ORDER`, ordered among themselves by label text (alphabetically, the
secondary sort key) — the original encounter order plays no role. -/
theorem parse_parts_unknown_last_alphabetical (raw : String) :
    (parse_parts raw).Pairwise (fun a b =>
      (b ∈ PART_ORDER → a ∈ PART_ORDER) ∧
      (a ∉ PART_ORDER → b ∉ PART_ORDER → strLt a b)) := by
  refine (parse_parts_pairwise_partLT raw).imp ?_
  rintro a b (h | ⟨h, hs⟩)
  · refine ⟨fun hb => ?_, fun ha hb => ?_⟩
    · have := part_rank_lt_iff_mem.mpr hb
      exact part_rank_lt_iff_mem.mp (by omega)
    · have ha2 := part_rank_eq_length_iff.mpr ha
      have hb2 := part_rank_eq_length_iff.mpr hb
      omega
  · refine ⟨fun hb => part_rank_lt_iff_mem.mp ?_, fun _ _ => hs⟩
    have := part_rank_lt_iff_mem.mpr hb
    omega

/-- Witness for `parse_parts_unknown_last_alphabetical` at a concrete
input. -/
theorem parse_parts_unknown_last_alphabetical_witness :
    (parse_parts "zebra, apple").Pairwise (fun a b =>
      (b ∈ PART_ORDER → a ∈ PART_ORDER) ∧
      (a ∉ PART_ORDER → b ∉ PART_ORDER → strLt a b)) :=
  parse_parts_unknown_last_alphabetical "zebra, apple"

theorem length_dropWhile_le (p : Char → Bool) : ∀ l : List Char, (l.dropWhile p).length ≤ l.length
  | [] => Nat.le_refl 0
  | c :: cs => by
    by_cases h : p c = true
    · rw [List.dropWhile_cons_of_pos h]
      exact Nat.le_succ_of_le (length_dropWhile_le p cs)
    · rw [List.dropWhile_cons_of_neg (by simpa using h)]

theorem dropWhile_eq_self_of_head {p : Char → Bool} :
    ∀ {l : List Char}, (∀ x, l.head? = some x → p x = false) → l.dropWhile p = l
  | [], _ => rfl
  | c :: _, h => List.dropWhile_cons_of_neg (by simp [h c rfl])

theorem head_false_of_dropWhile_eq_self {p : Char → Bool} {w : List Char}
    (hw : w.dropWhile p = w) : ∀ x, w.head? = some x → p x = false := by
  intro x hx
  cases w with
  | nil => simp at hx
  | cons c ws =>
    simp only [List.head?_cons, Option.some.injEq] at hx
    subst hx
    by_cases h : p c = true
    · rw [List.dropWhile_cons_of_pos h] at hw
      have h1 := length_dropWhile_le p ws
      have h2 := congrArg List.length hw
      simp at h2
      omega
    · simpa using h

theorem dropWhile_idem (p : Char → Bool) (l : List Char) :
    (l.dropWhile p).dropWhile p = l.dropWhile p := by
  apply dropWhile_eq_self_of_head
  intro x hx
  have h := List.head?_dropWhile_not p l
  rw [hx] at h
  exact h

theorem dropWhile_eq_self_of_prefix {p : Char → Bool} {z w : List Char} (hp : z <+: w)
    (hw : w.dropWhile p = w) : z.dropWhile p = z := by
  apply dropWhile_eq_self_of_head
  intro x hx
  obtain ⟨t, rfl⟩ := hp
  apply head_false_of_dropWhile_eq_self hw
  cases z with
  | nil => simp at hx
  | cons c cs =>
    simp only [List.head?_cons, Option.some.injEq] at hx
    simpa using hx

theorem stripEnds_front (p : Char → Bool) (l : List Char) :
    (stripEnds p l).dropWhile p = stripEnds p l := by
  unfold stripEnds
  refine dropWhile_eq_self_of_prefix ?_ (dropWhile_idem p l)
  have hsuf : ((l.dropWhile p).reverse.dropWhile p) <:+ (l.dropWhile p).reverse :=
    List.dropWhile_suffix p
  have h := List.reverse_prefix.mpr hsuf
  rwa [List.reverse_reverse] at h

theorem stripEnds_back (p : Char → Bool) (l : List Char) :
    (stripEnds p l).reverse.dropWhile p = (stripEnds p l).reverse := by
  unfold stripEnds
  rw [List.reverse_reverse]
  exact dropWhile_idem p (l.dropWhile p).reverse

theorem forall_dropWhile_iff {p : Char → Bool} {l : List Char} :
    (∀ x ∈ l.dropWhile p, p x = true) ↔ ∀ x ∈ l, p x = true := by
  constructor
  · intro h x hx
    rw [← List.takeWhile_append_dropWhile p l] at hx
    rcases List.mem_append.mp hx with h2 | h2
    · exact List.mem_takeWhile_imp h2
    · exact h x h2
  · intro h x hx
    exact h x ((List.dropWhile_suffix p).sublist.subset hx)

theorem stripEnds_eq_nil_iff {p : Char → Bool} {l : List Char} :
    stripEnds p l = [] ↔ ∀ c ∈ l, p c = true := by
  unfold stripEnds
  rw [List.reverse_eq_nil_iff, List.dropWhile_eq_nil_iff]
  constructor
  · intro h c hc
    exact forall_dropWhile_iff.mp (fun x hx => h x (by simpa using hx)) c hc
  · intro h c hc
    have hc2 : c ∈ l.dropWhile p := by simpa using hc
    exact h c ((List.dropWhile_suffix p).sublist.subset hc2)

theorem collapseRunsAux_mem {bad : Char → Bool} {rep : Char} :
    ∀ {l : List Char} {b : Bool} {c : Char}, c ∈ collapseRunsAux bad rep l b →
      c = rep ∨ (c ∈ l ∧ bad c = false) := by
  intro l
  induction l with
  | nil => intro b c h; simp [collapseRunsAux] at h
  | cons x xs ih =>
    intro b c h
    simp only [collapseRunsAux] at h
    by_cases hx : bad x = true
    · rw [if_pos hx] at h
      by_cases hb : b = true
      · rw [if_pos hb] at h
        rcases ih h with h2 | ⟨h2, h3⟩
        · exact Or.inl h2
        · exact Or.inr ⟨List.mem_cons_of_mem x h2, h3⟩
      · rw [if_neg hb] at h
        rcases List.mem_cons.mp h with h2 | h2
        · exact Or.inl h2
        · rcases ih h2 with h3 | ⟨h3, h4⟩
          · exact Or.inl h3
          · exact Or.inr ⟨List.mem_cons_of_mem x h3, h4⟩
    · rw [if_neg hx] at h
      rcases List.mem_cons.mp h with h2 | h2
      · subst h2
        exact Or.inr ⟨List.mem_cons_self _ _, by simpa using hx⟩
      · rcases ih h2 with h3 | ⟨h3, h4⟩
        · exact Or.inl h3
        · exact Or.inr ⟨List.mem_cons_of_mem x h3, h4⟩

theorem collapseRunsAux_mem_good {bad : Char → Bool} {rep : Char} :
    ∀ {l : List Char} {c : Char}, c ∈ l → bad c = false →
      ∀ b : Bool, c ∈ collapseRunsAux bad rep l b := by
  intro l
  induction l with
  | nil => intro c h; simp at h
  | cons x xs ih =>
    intro c hc hbad b
    simp only [collapseRunsAux]
    rcases List.mem_cons.mp hc with h2 | h2
    · subst h2
      rw [if_neg (by simp [hbad])]
      exact List.mem_cons_self c _
    · by_cases hx : bad x = true
      · rw [if_pos hx]
        by_cases hb : b = true
        · rw [if_pos hb]
          exact ih h2 hbad true
        · rw [if_neg hb]
          exact List.mem_cons_of_mem rep (ih h2 hbad true)
      · rw [if_neg hx]
        exact List.mem_cons_of_mem x (ih h2 hbad false)

/-- Counterexample to C3 as stated: `slugify` can return the empty string;
on the empty input (and on any input with no alphanumeric character) the
result is empty. -/
theorem slugify_empty_counterexample : slugify "" = "" := by decide

theorem slugify_data (s : String) :
    (slugify s).data =
      stripEnds (fun c => c = '-')
        (collapseRuns (fun c => !(isSlugChar c)) '-' (lowerL s.data)) := rfl

/-- C3 as amended: `slugify` never produces leading or trailing hyphens, and
the quoted example holds; the result is empty exactly when the input has no
character that lowercases into `[a-z0-9]` (so it is not always non-empty). -/
theorem slugify_amended :
    (∀ s : String,
      ((slugify s).data.dropWhile (fun c => c = '-') = (slugify s).data ∧
       (slugify s).data.reverse.dropWhile (fun c => c = '-') = (slugify s).data.reverse) ∧
      (slugify s = "" ↔ ∀ c ∈ s.data, isSlugChar (pyLowerChar c) = false)) ∧
    slugify "Wild Honey & Bee Wax" = "wild-honey-bee-wax" := by
  refine ⟨fun s => ⟨⟨?_, ?_⟩, ?_⟩, by decide⟩
  · rw [slugify_data]
    exact stripEnds_front _ _
  · rw [slugify_data]
    exact stripEnds_back _ _
  · have hdata : slugify s = "" ↔ (slugify s).data = [] := by
      constructor
      · intro h; rw [h]
      · intro h; exact strData_inj h
    rw [hdata, slugify_data, stripEnds_eq_nil_iff]
    constructor
    · intro h c hc
      by_contra hbad
      have hgood : isSlugChar (pyLowerChar c) = true := by
        cases hh : isSlugChar (pyLowerChar c)
        · exact absurd hh hbad
        · rfl
      have hmem : pyLowerChar c ∈ lowerL s.data := List.mem_map_of_mem pyLowerChar hc
      have hin : pyLowerChar c ∈
          collapseRunsAux (fun c => !(isSlugChar c)) '-' (lowerL s.data) false :=
        collapseRunsAux_mem_good hmem (by simp [hgood]) false
      have := h (pyLowerChar c) hin
      simp at this
      rw [this] at hgood
      exact absurd hgood (by decide)
    · intro h c hc
      rcases collapseRunsAux_mem hc with h2 | ⟨h2, h3⟩
      · simp [h2]
      · rcases List.mem_map.mp h2 with ⟨d, hd, rfl⟩
        have := h d hd
        rw [this] at h3
        simp at h3

/-- Witness for `slugify_amended`: the emptiness characterisation applied at
a concrete all-symbol input. -/
theorem slugify_amended_witness :
    slugify "&&" = "" ↔ ∀ c ∈ "&&".data, isSlugChar (pyLowerChar c) = false :=
  (slugify_amended.1 "&&").2

theorem wordsAux_mem : ∀ (l cur : List Char), (∀ c ∈ cur, isPySpace c = false) →
    ∀ w ∈ wordsAux cur l, w ≠ [] ∧ ∀ c ∈ w, isPySpace c = false ∧ (c ∈ l ∨ c ∈ cur) := by
  intro l
  induction l with
  | nil =>
    intro cur hcur w hw
    simp only [wordsAux] at hw
    by_cases h : cur = []
    · rw [if_pos h] at hw
      simp at hw
    · rw [if_neg h] at hw
      rcases List.mem_singleton.mp hw with rfl
      refine ⟨by simpa using h, fun c hc => ?_⟩
      have hc2 : c ∈ cur := List.mem_reverse.mp hc
      exact ⟨hcur c hc2, Or.inr hc2⟩
  | cons x xs ih =>
    intro cur hcur w hw
    simp only [wordsAux] at hw
    by_cases hx : isPySpace x = true
    · rw [if_pos hx] at hw
      by_cases h : cur = []
      · rw [if_pos h] at hw
        obtain ⟨hne, hprop⟩ := ih [] (by simp) w hw
        refine ⟨hne, fun c hc => ?_⟩
        obtain ⟨hs, hmem⟩ := hprop c hc
        rcases hmem with hm | hm
        · exact ⟨hs, Or.inl (List.mem_cons_of_mem x hm)⟩
        · simp at hm
      · rw [if_neg h] at hw
        rcases List.mem_cons.mp hw with rfl | hw2
        · refine ⟨by simpa using h, fun c hc => ?_⟩
          have hc2 : c ∈ cur := List.mem_reverse.mp hc
          exact ⟨hcur c hc2, Or.inr hc2⟩
        · obtain ⟨hne, hprop⟩ := ih [] (by simp) w hw2
          refine ⟨hne, fun c hc => ?_⟩
          obtain ⟨hs, hmem⟩ := hprop c hc
          rcases hmem with hm | hm
          · exact ⟨hs, Or.inl (List.mem_cons_of_mem x hm)⟩
          · simp at hm
    · rw [if_neg hx] at hw
      have hcur2 : ∀ c ∈ x :: cur, isPySpace c = false := by
        intro c hc
        rcases List.mem_cons.mp hc with rfl | hc2
        · simpa using hx
        · exact hcur c hc2
      obtain ⟨hne, hprop⟩ := ih (x :: cur) hcur2 w hw
      refine ⟨hne, fun c hc => ?_⟩
      obtain ⟨hs, hmem⟩ := hprop c hc
      rcases hmem with hm | hm
      · exact ⟨hs, Or.inl (List.mem_cons_of_mem x hm)⟩
      · rcases List.mem_cons.mp hm with rfl | hm2
        · exact ⟨hs, Or.inl (List.mem_cons_self c xs)⟩
        · exact ⟨hs, Or.inr hm2⟩

theorem wordsAux_append_word : ∀ (w : List Char), (∀ c ∈ w, isPySpace c = false) →
    ∀ (cur l : List Char), wordsAux cur (w ++ l) = wordsAux (w.reverse ++ cur) l := by
  intro w
  induction w with
  | nil => intro _ cur l; simp
  | cons c w2 ih =>
    intro hw cur l
    have hc : isPySpace c = false := hw c (List.mem_cons_self c w2)
    simp only [List.cons_append, wordsAux, hc, List.append_eq]
    rw [if_neg (by simp [hc])]
    rw [ih (fun d hd => hw d (List.mem_cons_of_mem c hd)) (c :: cur) l]
    congr 1
    simp [List.reverse_cons, List.append_assoc]

theorem words_joinWords : ∀ ws : List (List Char),
    (∀ w ∈ ws, w ≠ [] ∧ ∀ c ∈ w, isPySpace c = false) →
    words (joinWords ws) = ws
  | [], _ => rfl
  | [w], h => by
    obtain ⟨hne, hw⟩ := h w (List.mem_singleton_self w)
    show wordsAux [] (joinWords [w]) = [w]
    have : joinWords [w] = w ++ [] := by simp [joinWords]
    rw [this, wordsAux_append_word w hw [] []]
    simp only [wordsAux, List.append_nil]
    rw [if_neg (by simpa using hne)]
    simp
  | w :: w2 :: ws, h => by
    obtain ⟨hne, hw⟩ := h w (List.mem_cons_self w (w2 :: ws))
    have hrest : ∀ v ∈ w2 :: ws, v ≠ [] ∧ ∀ c ∈ v, isPySpace c = false :=
      fun v hv => h v (List.mem_cons_of_mem w hv)
    show wordsAux [] (joinWords (w :: w2 :: ws)) = w :: w2 :: ws
    have hj : joinWords (w :: w2 :: ws) = w ++ (' ' :: joinWords (w2 :: ws)) := rfl
    rw [hj, wordsAux_append_word w hw [] (' ' :: joinWords (w2 :: ws))]
    simp only [wordsAux, List.append_nil]
    rw [if_pos (by decide), if_neg (by simpa using hne), List.reverse_reverse]
    exact congrArg (w :: ·) (words_joinWords (w2 :: ws) hrest)

theorem mem_joinWords : ∀ {ws : List (List Char)} {c : Char}, c ∈ joinWords ws →
    c = ' ' ∨ ∃ w ∈ ws, c ∈ w
  | [], c, h => by simp [joinWords] at h
  | [w], c, h => by
    simp only [joinWords] at h
    exact Or.inr ⟨w, List.mem_singleton_self w, h⟩
  | w :: w2 :: ws, c, h => by
    simp only [joinWords] at h
    rcases List.mem_append.mp h with h2 | h2
    · exact Or.inr ⟨w, List.mem_cons_self w (w2 :: ws), h2⟩
    · rcases List.mem_cons.mp h2 with rfl | h3
      · exact Or.inl rfl
      · rcases mem_joinWords h3 with h4 | ⟨v, hv, hc⟩
        · exact Or.inl h4
        · exact Or.inr ⟨v, List.mem_cons_of_mem w hv, hc⟩

theorem flatMap_nfkdChar_ascii : ∀ {l : List Char}, (∀ c ∈ l, c.toNat < 128) →
    l.flatMap nfkdChar = l
  | [], _ => rfl
  | c :: cs, h => by
    have hc : nfkdChar c = [c] := by
      unfold nfkdChar
      rw [if_pos (h c (List.mem_cons_self c cs))]
    simp only [List.flatMap_cons, hc]
    rw [flatMap_nfkdChar_ascii (fun d hd => h d (List.mem_cons_of_mem c hd))]
    rfl

theorem asciiFilter_ascii {l : List Char} (h : ∀ c ∈ l, c.toNat < 128) :
    asciiFilter l = l := by
  unfold asciiFilter
  rw [List.filter_eq_self]
  intro c hc
  simpa using h c hc

theorem to_asciiL_ascii {l : List Char} : ∀ c ∈ to_asciiL l, c.toNat < 128 := by
  intro c hc
  unfold to_asciiL at hc
  rcases mem_joinWords hc with rfl | ⟨w, hw, hcw⟩
  · decide
  · have := wordsAux_mem (asciiFilter (l.flatMap nfkdChar)) [] (by simp) w hw
    obtain ⟨-, hprop⟩ := this
    obtain ⟨-, hmem⟩ := hprop c hcw
    rcases hmem with hm | hm
    · have := List.mem_filter.mp hm
      simpa using this.2
    · simp at hm

/-- C8: text normalization is idempotent: `to_ascii (to_ascii x) =
to_ascii x` for every string `x`. -/
theorem to_ascii_idempotent (x : String) : to_ascii (to_ascii x) = to_ascii x := by
  have key : to_asciiL (to_asciiL x.data) = to_asciiL x.data := by
    have hascii : ∀ c ∈ to_asciiL x.data, c.toNat < 128 := to_asciiL_ascii
    have h1 : to_asciiL (to_asciiL x.data) =
        joinWords (words (asciiFilter ((to_asciiL x.data).flatMap nfkdChar))) := rfl
    rw [h1, flatMap_nfkdChar_ascii hascii, asciiFilter_ascii hascii]
    have hws : ∀ w ∈ words (asciiFilter (x.data.flatMap nfkdChar)),
        w ≠ [] ∧ ∀ c ∈ w, isPySpace c = false := by
      intro w hw
      obtain ⟨hne, hprop⟩ :=
        wordsAux_mem (asciiFilter (x.data.flatMap nfkdChar)) [] (by simp) w hw
      exact ⟨hne, fun c hc => (hprop c hc).1⟩
    have h2 : to_asciiL x.data =
        joinWords (words (asciiFilter (x.data.flatMap nfkdChar))) := rfl
    rw [h2, words_joinWords _ hws]
  exact congrArg String.mk key
